import Mathlib

set_option maxRecDepth 100000

/-!
Verification of the streaming line-deduplicator in `src/main.py`.

Modelling conventions:
* A byte is a `Nat` (values 0-255 in practice); a `Line` is the UTF-8 byte
  sequence of one line, line terminator included, exactly the bytes that
  `line.encode('utf-8')` produces in the source.
* `md5` is the MD5 digest (RFC 1321) of a byte sequence, returned as its
  16-byte list, mirroring `hashlib.md5(...).digest()`.
* The loop body of `remove_duplicates` (src/main.py lines 25-44) is embedded
  as a fold of `processLine` over the list of lines; the Python `set`
  `seen_hashes` is modelled as a duplicate-free list of digests with
  membership test.
* Python opens both files in text mode, so reading performs universal-newline
  translation (each CRLF or lone CR of the input becomes LF) before lines are
  split; `readLines` models that byte-level pipeline for valid UTF-8 input,
  and writing on a POSIX platform emits the line bytes unchanged.
* The `try/except` clauses of lines 46-54 are embedded by
  `remove_duplicates_run`: an unreadable/unwritable stream makes the function
  print and call `sys.exit(1)` instead of returning counts or re-raising.
-/

/-- Truncation to a 32-bit word, `x mod 2^32`. -/
def u32 (x : Nat) : Nat := x % 4294967296

/-- Left rotation of a 32-bit word by `s` bits. -/
def rotl (x s : Nat) : Nat := u32 ((u32 x) <<< s) ||| ((u32 x) >>> (32 - s))

/-- The 64 MD5 sine-derived constants K[i] of RFC 1321. -/
def mdK : List Nat :=
  [0xd76aa478, 0xe8c7b756, 0x242070db, 0xc1bdceee,
   0xf57c0faf, 0x4787c62a, 0xa8304613, 0xfd469501,
   0x698098d8, 0x8b44f7af, 0xffff5bb1, 0x895cd7be,
   0x6b901122, 0xfd987193, 0xa679438e, 0x49b40821,
   0xf61e2562, 0xc040b340, 0x265e5a51, 0xe9b6c7aa,
   0xd62f105d, 0x02441453, 0xd8a1e681, 0xe7d3fbc8,
   0x21e1cde6, 0xc33707d6, 0xf4d50d87, 0x455a14ed,
   0xa9e3e905, 0xfcefa3f8, 0x676f02d9, 0x8d2a4c8a,
   0xfffa3942, 0x8771f681, 0x6d9d6122, 0xfde5380c,
   0xa4beea44, 0x4bdecfa9, 0xf6bb4b60, 0xbebfbc70,
   0x289b7ec6, 0xeaa127fa, 0xd4ef3085, 0x04881d05,
   0xd9d4d039, 0xe6db99e5, 0x1fa27cf8, 0xc4ac5665,
   0xf4292244, 0x432aff97, 0xab9423a7, 0xfc93a039,
   0x655b59c3, 0x8f0ccc92, 0xffeff47d, 0x85845dd1,
   0x6fa87e4f, 0xfe2ce6e0, 0xa3014314, 0x4e0811a1,
   0xf7537e82, 0xbd3af235, 0x2ad7d2bb, 0xeb86d391]

/-- The 64 MD5 per-round left-rotation amounts s[i]. -/
def mdS : List Nat :=
  [7, 12, 17, 22, 7, 12, 17, 22, 7, 12, 17, 22, 7, 12, 17, 22,
   5, 9, 14, 20, 5, 9, 14, 20, 5, 9, 14, 20, 5, 9, 14, 20,
   4, 11, 16, 23, 4, 11, 16, 23, 4, 11, 16, 23, 4, 11, 16, 23,
   6, 10, 15, 21, 6, 10, 15, 21, 6, 10, 15, 21, 6, 10, 15, 21]

/-- The MD5 round function F/G/H/I, selected by the operation index `i`. -/
def mdF (i b c d : Nat) : Nat :=
  if i < 16 then (b &&& c) ||| ((4294967295 ^^^ b) &&& d)
  else if i < 32 then (d &&& b) ||| ((4294967295 ^^^ d) &&& c)
  else if i < 48 then b ^^^ c ^^^ d
  else c ^^^ (b ||| (4294967295 ^^^ d))

/-- The MD5 message-word index g(i) of RFC 1321. -/
def mdG (i : Nat) : Nat :=
  if i < 16 then i
  else if i < 32 then (5 * i + 1) % 16
  else if i < 48 then (3 * i + 5) % 16
  else (7 * i) % 16

/-- One of the 64 MD5 operations on the state (a,b,c,d), over block words `w`. -/
def mdStep (w : List Nat) (st : Nat × Nat × Nat × Nat) (i : Nat) :
    Nat × Nat × Nat × Nat :=
  let a := st.1
  let b := st.2.1
  let c := st.2.2.1
  let d := st.2.2.2
  let f := u32 (mdF i b c d + a + mdK.getD i 0 + w.getD (mdG i) 0)
  (d, u32 (b + rotl f (mdS.getD i 0)), b, c)

/-- Processing of one 16-word block: 64 operations, then wordwise addition. -/
def md5Block (st : Nat × Nat × Nat × Nat) (w : List Nat) :
    Nat × Nat × Nat × Nat :=
  let r := (List.range 64).foldl (mdStep w) st
  (u32 (st.1 + r.1), u32 (st.2.1 + r.2.1),
   u32 (st.2.2.1 + r.2.2.1), u32 (st.2.2.2 + r.2.2.2))

/-- Little-endian 4-byte rendering of a 32-bit word. -/
def wordBytes (x : Nat) : List Nat :=
  [x % 256, x / 256 % 256, x / 65536 % 256, x / 16777216 % 256]

/-- Little-endian 8-byte rendering of the message bit length mod 2^64. -/
def lenBytes (len : Nat) : List Nat :=
  let bits := (8 * len) % 18446744073709551616
  [bits % 256, bits / 256 % 256, bits / 65536 % 256, bits / 16777216 % 256,
   bits / 4294967296 % 256, bits / 1099511627776 % 256,
   bits / 281474976710656 % 256, bits / 72057594037927936 % 256]

/-- MD5 padding: a 0x80 byte, zeros to 56 mod 64, then the 64-bit bit length. -/
def padMessage (msg : List Nat) : List Nat :=
  msg ++ [128] ++ List.replicate ((119 - msg.length % 64) % 64) 0
      ++ lenBytes msg.length

/-- Group a byte list into little-endian 32-bit words (length a multiple of 4). -/
def toWords : List Nat → List Nat
  | a :: b :: c :: d :: rest =>
      (a + 256 * b + 65536 * c + 16777216 * d) :: toWords rest
  | _ => []

/-- Group a word list into 16-word blocks (a padded message always has a
multiple of 16 words; a ragged tail, which never arises, is one short block). -/
def toBlocks : List Nat → List (List Nat)
  | w0 :: w1 :: w2 :: w3 :: w4 :: w5 :: w6 :: w7 ::
    w8 :: w9 :: w10 :: w11 :: w12 :: w13 :: w14 :: w15 :: rest =>
      [w0, w1, w2, w3, w4, w5, w6, w7,
       w8, w9, w10, w11, w12, w13, w14, w15] :: toBlocks rest
  | [] => []
  | ws => [ws]

/-- MD5 digest of a byte sequence, as its 16-byte list:
the model of `hashlib.md5(bytes).digest()`. -/
def md5 (msg : List Nat) : List Nat :=
  let blocks := toBlocks (toWords (padMessage msg))
  let r := blocks.foldl md5Block (0x67452301, 0xefcdab89, 0x98badcfe, 0x10325476)
  wordBytes r.1 ++ wordBytes r.2.1 ++ wordBytes r.2.2.1 ++ wordBytes r.2.2.2

/-- A line: the UTF-8 bytes of one input line, terminator included. -/
abbrev Line := List Nat

/-- The loop state of `remove_duplicates` (src/main.py lines 25-27) together
with the sequence of lines written to the output stream so far. -/
structure DedupState where
  seen_hashes : List (List Nat)
  out : List Line
  unique_count : Nat
  duplicate_count : Nat
deriving DecidableEq

/-- The state before the loop: empty seen set, empty output, zero counters. -/
def initState : DedupState := ⟨[], [], 0, 0⟩

/-- The body of the `for line in f_in` loop (src/main.py lines 33-42),
parameterised by the digest function: hash the line, then either write it and
record the digest (unique) or drop it (duplicate). -/
def processLine (hash : Line → List Nat) (s : DedupState) (line : Line) :
    DedupState :=
  let line_hash := hash line
  if line_hash ∈ s.seen_hashes then
    { s with duplicate_count := s.duplicate_count + 1 }
  else
    { s with out := s.out ++ [line],
             seen_hashes := s.seen_hashes ++ [line_hash],
             unique_count := s.unique_count + 1 }

/-- The whole loop from the initial state, for an arbitrary digest function. -/
def processLinesWith (hash : Line → List Nat) (lines : List Line) : DedupState :=
  lines.foldl (processLine hash) initState

/-- The core of `remove_duplicates`, as a function of the sequence of lines
the text stream yields: the loop with the MD5 digest of the line's bytes. -/
def remove_duplicates (lines : List Line) : DedupState :=
  processLinesWith md5 lines

/-- Universal-newline translation performed by Python text-mode reading:
every CRLF pair and every lone CR of the byte stream becomes a single LF
(bytes 13 10 or 13 become 10). Valid for UTF-8 since bytes 10 and 13 occur
only as the code points LF and CR. -/
def translateNewlines : List Nat → List Nat
  | [] => []
  | 13 :: 10 :: rest => 10 :: translateNewlines rest
  | 13 :: rest => 10 :: translateNewlines rest
  | b :: rest => b :: translateNewlines rest

/-- Split a byte stream into lines the way `for line in f_in` yields them:
each line extends through its LF terminator; a final unterminated chunk is a
line of its own; the empty stream yields no lines. -/
def splitLines : List Nat → List Line
  | [] => []
  | b :: rest =>
    if b = 10 then [10] :: splitLines rest
    else
      match splitLines rest with
      | [] => [[b]]
      | l :: ls => (b :: l) :: ls

/-- The sequence of lines `remove_duplicates` iterates over for a given input
file content: text-mode newline translation, then line splitting. -/
def readLines (file : List Nat) : List Line :=
  splitLines (translateNewlines file)

/-- `remove_duplicates` as a function of the input file's bytes. The output
file's bytes are the concatenation `(·.out).flatten` (text-mode writing on a
POSIX platform emits the line bytes unchanged). -/
def remove_duplicates_file (file : List Nat) : DedupState :=
  remove_duplicates (readLines file)

/-- The error classes distinguished by the except clauses of
src/main.py lines 46-54. -/
inductive StreamFault
  | fileNotFound
  | permissionDenied
  | ioFailure
deriving DecidableEq

/-- The observable outcome of one call to `remove_duplicates`: a returned
counts pair, a propagated exception, or a direct process exit. -/
inductive RunOutcome
  | returned (unique_count duplicate_count : Nat)
  | raised (e : StreamFault)
  | exited (code : Nat)
deriving DecidableEq

/-- The whole of `remove_duplicates` (src/main.py lines 29-54) with its
try/except: a readable input yields the returned counts pair; any stream
fault is caught inside the function, a message is printed, and `sys.exit(1)`
terminates with code 1 — the fault is not re-raised to the caller. -/
def remove_duplicates_run (input : Sum StreamFault (List Nat)) : RunOutcome :=
  match input with
  | Sum.inl _ => RunOutcome.exited 1
  | Sum.inr file =>
      let r := remove_duplicates_file file
      RunOutcome.returned r.unique_count r.duplicate_count

/-- Spec-side definition, following the spec's words for P2: a line is kept
iff no earlier line of the input produced the same digest; `earlier`
accumulates all lines already processed, kept or dropped. -/
def firstOccurrencesFrom (hash : Line → List Nat) (earlier : List Line) :
    List Line → List Line
  | [] => []
  | l :: rest =>
    if earlier.any (fun e => hash e == hash l) then
      firstOccurrencesFrom hash (earlier ++ [l]) rest
    else
      l :: firstOccurrencesFrom hash (earlier ++ [l]) rest

/-- Spec-side definition: the input's lines filtered to first occurrences
(no earlier line anywhere in the input has the same digest), in order. -/
def firstOccurrences (hash : Line → List Nat) (lines : List Line) : List Line :=
  firstOccurrencesFrom hash [] lines

/-- Does the line end with the LF byte? -/
def endsWithNl : Line → Bool
  | [] => false
  | [b] => b == 10
  | _ :: rest => endsWithNl rest

/-- Every line except possibly the last ends with LF. -/
def chainEnds : List Line → Prop
  | [] => True
  | [_] => True
  | l :: l₂ :: rest => endsWithNl l = true ∧ chainEnds (l₂ :: rest)


/-! ## Lemmas about the deduplication loop -/

theorem processLine_of_mem (hash : Line → List Nat) (s : DedupState) (l : Line)
    (h : hash l ∈ s.seen_hashes) :
    processLine hash s l = { s with duplicate_count := s.duplicate_count + 1 } := by
  simp [processLine, h]

theorem processLine_of_not_mem (hash : Line → List Nat) (s : DedupState) (l : Line)
    (h : hash l ∉ s.seen_hashes) :
    processLine hash s l =
      { s with out := s.out ++ [l],
               seen_hashes := s.seen_hashes ++ [hash l],
               unique_count := s.unique_count + 1 } := by
  simp [processLine, h]

theorem foldl_out_spec (hash : Line → List Nat) (lines : List Line) :
    ∀ (s : DedupState) (earlier : List Line),
      (∀ d, d ∈ s.seen_hashes ↔ ∃ e ∈ earlier, hash e = d) →
      (List.foldl (processLine hash) s lines).out
        = s.out ++ firstOccurrencesFrom hash earlier lines := by
  induction lines with
  | nil =>
    intro s earlier _
    simp [firstOccurrencesFrom]
  | cons l rest ih =>
    intro s earlier hinv
    by_cases hmem : hash l ∈ s.seen_hashes
    · have hany : (earlier.any fun e => hash e == hash l) = true := by
        rw [List.any_eq_true]
        obtain ⟨e, he, heq⟩ := (hinv (hash l)).1 hmem
        exact ⟨e, he, by simp [heq]⟩
      have hinv' : ∀ d, d ∈ s.seen_hashes ↔ ∃ e ∈ earlier ++ [l], hash e = d := by
        intro d
        constructor
        · intro hd
          obtain ⟨e, he, heq⟩ := (hinv d).1 hd
          exact ⟨e, by simp [he], heq⟩
        · rintro ⟨e, he, heq⟩
          rcases List.mem_append.1 he with h1 | h1
          · exact (hinv d).2 ⟨e, h1, heq⟩
          · have he2 : e = l := by simpa using h1
            subst he2
            exact heq ▸ hmem
      rw [List.foldl_cons, processLine_of_mem hash s l hmem]
      simp only [firstOccurrencesFrom, hany, if_true]
      exact ih { s with duplicate_count := s.duplicate_count + 1 }
        (earlier ++ [l]) hinv'
    · have hany : (earlier.any fun e => hash e == hash l) = false := by
        rw [List.any_eq_false]
        intro e he
        simp only [beq_iff_eq]
        intro heq
        exact hmem ((hinv (hash l)).2 ⟨e, he, heq⟩)
      have hinv' : ∀ d, d ∈ s.seen_hashes ++ [hash l] ↔
          ∃ e ∈ earlier ++ [l], hash e = d := by
        intro d
        rw [List.mem_append]
        constructor
        · rintro (hd | hd)
          · obtain ⟨e, he, heq⟩ := (hinv d).1 hd
            exact ⟨e, by simp [he], heq⟩
          · have hd' : d = hash l := by simpa using hd
            exact ⟨l, by simp, hd'.symm⟩
        · rintro ⟨e, he, heq⟩
          rcases List.mem_append.1 he with h1 | h1
          · exact Or.inl ((hinv d).2 ⟨e, h1, heq⟩)
          · have he2 : e = l := by simpa using h1
            subst he2
            exact Or.inr (by simp [heq])
      rw [List.foldl_cons, processLine_of_not_mem hash s l hmem]
      simp only [firstOccurrencesFrom, hany, if_false, Bool.false_eq_true]
      have hgoal := ih { s with
                          out := s.out ++ [l]
                          seen_hashes := s.seen_hashes ++ [hash l]
                          unique_count := s.unique_count + 1 }
        (earlier ++ [l]) hinv'
      simpa [List.append_assoc] using hgoal

theorem foldl_counts (hash : Line → List Nat) (lines : List Line) :
    ∀ s : DedupState,
      (List.foldl (processLine hash) s lines).unique_count
        + (List.foldl (processLine hash) s lines).duplicate_count
      = s.unique_count + s.duplicate_count + lines.length := by
  induction lines with
  | nil => intro s; simp
  | cons l rest ih =>
    intro s
    by_cases hmem : hash l ∈ s.seen_hashes
    · rw [List.foldl_cons, processLine_of_mem hash s l hmem, ih]
      simp only [List.length_cons]
      omega
    · rw [List.foldl_cons, processLine_of_not_mem hash s l hmem, ih]
      simp only [List.length_cons]
      omega

theorem foldl_seen_eq_map (hash : Line → List Nat) (lines : List Line) :
    ∀ s : DedupState, s.seen_hashes = s.out.map hash →
      (List.foldl (processLine hash) s lines).seen_hashes
        = (List.foldl (processLine hash) s lines).out.map hash := by
  induction lines with
  | nil => intro s h; simpa using h
  | cons l rest ih =>
    intro s h
    by_cases hmem : hash l ∈ s.seen_hashes
    · rw [List.foldl_cons, processLine_of_mem hash s l hmem]
      exact ih { s with duplicate_count := s.duplicate_count + 1 } h
    · rw [List.foldl_cons, processLine_of_not_mem hash s l hmem]
      exact ih { s with
                  out := s.out ++ [l]
                  seen_hashes := s.seen_hashes ++ [hash l]
                  unique_count := s.unique_count + 1 } (by simp [h])

theorem nodup_append_one {α : Type} {l : List α} {a : α}
    (hn : l.Nodup) (ha : a ∉ l) : (l ++ [a]).Nodup := by
  rw [List.nodup_append]
  refine ⟨hn, List.nodup_singleton a, ?_⟩
  intro x hx hx'
  have hxa : x = a := by simpa using hx'
  exact ha (hxa ▸ hx)

theorem foldl_seen_nodup (hash : Line → List Nat) (lines : List Line) :
    ∀ s : DedupState, s.seen_hashes.Nodup →
      (List.foldl (processLine hash) s lines).seen_hashes.Nodup := by
  induction lines with
  | nil => intro s h; simpa using h
  | cons l rest ih =>
    intro s h
    by_cases hmem : hash l ∈ s.seen_hashes
    · rw [List.foldl_cons, processLine_of_mem hash s l hmem]
      exact ih { s with duplicate_count := s.duplicate_count + 1 } h
    · rw [List.foldl_cons, processLine_of_not_mem hash s l hmem]
      exact ih { s with
                  out := s.out ++ [l]
                  seen_hashes := s.seen_hashes ++ [hash l]
                  unique_count := s.unique_count + 1 }
        (nodup_append_one h hmem)

theorem foldl_unique_eq_length (hash : Line → List Nat) (lines : List Line) :
    ∀ s : DedupState, s.unique_count = s.out.length →
      (List.foldl (processLine hash) s lines).unique_count
        = (List.foldl (processLine hash) s lines).out.length := by
  induction lines with
  | nil => intro s h; simpa using h
  | cons l rest ih =>
    intro s h
    by_cases hmem : hash l ∈ s.seen_hashes
    · rw [List.foldl_cons, processLine_of_mem hash s l hmem]
      exact ih { s with duplicate_count := s.duplicate_count + 1 } h
    · rw [List.foldl_cons, processLine_of_not_mem hash s l hmem]
      exact ih { s with
                  out := s.out ++ [l]
                  seen_hashes := s.seen_hashes ++ [hash l]
                  unique_count := s.unique_count + 1 } (by simp [h])

theorem foldl_seen_mono (hash : Line → List Nat) (lines : List Line) :
    ∀ (s : DedupState) (d : List Nat), d ∈ s.seen_hashes →
      d ∈ (List.foldl (processLine hash) s lines).seen_hashes := by
  induction lines with
  | nil => intro s d h; simpa using h
  | cons l rest ih =>
    intro s d h
    by_cases hmem : hash l ∈ s.seen_hashes
    · rw [List.foldl_cons, processLine_of_mem hash s l hmem]
      exact ih { s with duplicate_count := s.duplicate_count + 1 } d h
    · rw [List.foldl_cons, processLine_of_not_mem hash s l hmem]
      exact ih { s with
                  out := s.out ++ [l]
                  seen_hashes := s.seen_hashes ++ [hash l]
                  unique_count := s.unique_count + 1 } d (by simp [h])

theorem foldl_hash_mem (hash : Line → List Nat) (lines : List Line) :
    ∀ (s : DedupState) (l : Line), l ∈ lines →
      hash l ∈ (List.foldl (processLine hash) s lines).seen_hashes := by
  induction lines with
  | nil => intro s l h; simp at h
  | cons x rest ih =>
    intro s l hl
    rcases List.mem_cons.1 hl with rfl | hl'
    · by_cases hmem : hash l ∈ s.seen_hashes
      · rw [List.foldl_cons, processLine_of_mem hash s l hmem]
        exact foldl_seen_mono hash rest _ _ hmem
      · rw [List.foldl_cons, processLine_of_not_mem hash s l hmem]
        exact foldl_seen_mono hash rest _ _ (by simp)
    · rw [List.foldl_cons]
      exact ih _ _ hl'

theorem foldl_all_new (hash : Line → List Nat) (lines : List Line) :
    ∀ s : DedupState,
      (∀ l ∈ lines, hash l ∉ s.seen_hashes) → (lines.map hash).Nodup →
      List.foldl (processLine hash) s lines =
        ⟨s.seen_hashes ++ lines.map hash, s.out ++ lines,
         s.unique_count + lines.length, s.duplicate_count⟩ := by
  induction lines with
  | nil =>
    intro s _ _
    simp
  | cons l rest ih =>
    intro s hnew hnd
    rw [List.map_cons, List.nodup_cons] at hnd
    have hmem : hash l ∉ s.seen_hashes := hnew l (by simp)
    have h1 : ∀ l' ∈ rest, hash l' ∉ s.seen_hashes ++ [hash l] := by
      intro l' hl' hmem'
      rcases List.mem_append.1 hmem' with h | h
      · exact hnew l' (by simp [hl']) h
      · have heq : hash l' = hash l := by simpa using h
        exact hnd.1 (heq ▸ List.mem_map_of_mem hash hl')
    rw [List.foldl_cons, processLine_of_not_mem hash s l hmem]
    have hrec := ih { s with
                      out := s.out ++ [l]
                      seen_hashes := s.seen_hashes ++ [hash l]
                      unique_count := s.unique_count + 1 } h1 hnd.2
    rw [hrec]
    simp [List.append_assoc]
    omega

theorem firstOccurrencesFrom_sublist (hash : Line → List Nat) (lines : List Line) :
    ∀ earlier, List.Sublist (firstOccurrencesFrom hash earlier lines) lines := by
  induction lines with
  | nil => intro earlier; simp [firstOccurrencesFrom]
  | cons l rest ih =>
    intro earlier
    simp only [firstOccurrencesFrom]
    split
    · exact List.Sublist.cons l (ih _)
    · exact List.Sublist.cons₂ l (ih _)

/-! ## Lemmas about text-mode reading -/

theorem translateNewlines_no_cr : ∀ bs : List Nat, (13 : Nat) ∉ translateNewlines bs := by
  intro bs
  induction bs using translateNewlines.induct with
  | case1 => simp [translateNewlines]
  | case2 rest ih => simpa [translateNewlines] using ih
  | case3 rest h ih => simpa [translateNewlines] using ih
  | case4 b rest h1 h2 ih =>
    simp only [translateNewlines]
    intro hmem
    rcases List.mem_cons.1 hmem with h | h
    · exact h2 h.symm
    · exact ih h

theorem translateNewlines_of_no_cr : ∀ bs : List Nat,
    (∀ b ∈ bs, b ≠ 13) → translateNewlines bs = bs := by
  intro bs
  induction bs using translateNewlines.induct with
  | case1 => intro _; rfl
  | case2 rest ih =>
    intro h
    exact absurd rfl (h 13 (by simp))
  | case3 rest h ih =>
    intro h'
    exact absurd rfl (h' 13 (by simp))
  | case4 b rest h1 h2 ih =>
    intro h
    simp only [translateNewlines]
    rw [ih (fun x hx => h x (by simp [hx]))]

theorem splitLines_cons (b : Nat) (rest : List Nat) :
    splitLines (b :: rest) =
      if b = 10 then [10] :: splitLines rest
      else
        match splitLines rest with
        | [] => [[b]]
        | l :: ls => (b :: l) :: ls := by
  rw [splitLines]

theorem splitLines_ne_nil (b : Nat) (rest : List Nat) :
    splitLines (b :: rest) ≠ [] := by
  simp only [splitLines]
  split
  · simp
  · split <;> simp

theorem flatten_splitLines : ∀ bs : List Nat, (splitLines bs).flatten = bs := by
  intro bs
  induction bs with
  | nil => simp [splitLines]
  | cons b rest ih =>
    simp only [splitLines]
    by_cases hb : b = 10
    · subst hb
      rw [if_pos rfl]
      simpa using ih
    · rw [if_neg hb]
      rcases hsp : splitLines rest with _ | ⟨l, ls⟩
      · have hrest : rest = [] := by
          cases rest with
          | nil => rfl
          | cons x xs => exact absurd hsp (splitLines_ne_nil x xs)
        subst hrest
        simp
      · rw [hsp] at ih
        simp only [List.flatten_cons] at ih ⊢
        simp [ih]

theorem mem_line_mem_bytes {bs : List Nat} {l : Line} {b : Nat}
    (hl : l ∈ splitLines bs) (hb : b ∈ l) : b ∈ bs := by
  have h : b ∈ (splitLines bs).flatten := List.mem_flatten.2 ⟨l, hl, hb⟩
  rwa [flatten_splitLines] at h

theorem splitLines_wf : ∀ bs : List Nat, ∀ l ∈ splitLines bs,
    l ≠ [] ∧ (10 : Nat) ∉ l.dropLast := by
  intro bs
  induction bs with
  | nil => intro l hl; simp [splitLines] at hl
  | cons b rest ih =>
    intro l hl
    simp only [splitLines] at hl
    by_cases hb : b = 10
    · subst hb
      rw [if_pos rfl] at hl
      rcases List.mem_cons.1 hl with rfl | hl'
      · exact ⟨by simp, by simp⟩
      · exact ih l hl'
    · rw [if_neg hb] at hl
      rcases hsp : splitLines rest with _ | ⟨l₀, ls⟩
      · rw [hsp] at hl
        have hlb : l = [b] := by simpa using hl
        subst hlb
        exact ⟨by simp, by simp⟩
      · rw [hsp] at hl
        rcases List.mem_cons.1 hl with rfl | hl'
        · have h₀ := ih l₀ (by rw [hsp]; simp)
          refine ⟨by simp, ?_⟩
          rcases l₀ with _ | ⟨x, xs⟩
          · exact absurd rfl h₀.1
          · intro hmem
            rw [List.dropLast_cons₂] at hmem
            rcases List.mem_cons.1 hmem with h | h
            · exact hb h.symm
            · exact h₀.2 h
        · exact ih l (by rw [hsp]; simp [hl'])

theorem endsWithNl_cons (b : Nat) (l : Line) (h : l ≠ []) :
    endsWithNl (b :: l) = endsWithNl l := by
  rcases l with _ | ⟨x, xs⟩
  · exact absurd rfl h
  · rfl

theorem chainEnds_tail {l : Line} {ls : List Line} (h : chainEnds (l :: ls)) :
    chainEnds ls := by
  rcases ls with _ | ⟨l₂, t⟩
  · trivial
  · exact h.2

theorem chainEnds_splitLines : ∀ bs : List Nat, chainEnds (splitLines bs) := by
  intro bs
  induction bs with
  | nil => trivial
  | cons b rest ih =>
    simp only [splitLines]
    by_cases hb : b = 10
    · subst hb
      rw [if_pos rfl]
      rcases hsp : splitLines rest with _ | ⟨l, ls⟩
      · trivial
      · rw [hsp] at ih
        exact ⟨rfl, ih⟩
    · rw [if_neg hb]
      rcases hsp : splitLines rest with _ | ⟨l₀, ls⟩
      · trivial
      · rw [hsp] at ih
        rcases ls with _ | ⟨l₁, t⟩
        · trivial
        · have hne : l₀ ≠ [] := (splitLines_wf rest l₀ (by rw [hsp]; simp)).1
          exact ⟨by rw [endsWithNl_cons b l₀ hne]; exact ih.1, ih.2⟩

theorem splitLines_single : ∀ l : Line, l ≠ [] → (10 : Nat) ∉ l.dropLast →
    splitLines l = [l] := by
  intro l
  induction l with
  | nil => intro h _; exact absurd rfl h
  | cons x xs ih =>
    intro _ hint
    rcases xs with _ | ⟨y, ys⟩
    · by_cases hx : x = 10
      · subst hx; rfl
      · rw [splitLines_cons, if_neg hx]
        rfl
    · have hx : x ≠ 10 := by
        intro h
        apply hint
        rw [List.dropLast_cons₂]
        exact h ▸ List.mem_cons_self x _
      have hint' : (10 : Nat) ∉ (y :: ys).dropLast := by
        intro h
        apply hint
        rw [List.dropLast_cons₂]
        exact List.mem_cons_of_mem x h
      have hrec := ih (by simp) hint'
      rw [splitLines_cons, if_neg hx, hrec]

theorem splitLines_append_line : ∀ (l : Line) (bs : List Nat), l ≠ [] →
    (10 : Nat) ∉ l.dropLast → endsWithNl l = true →
    splitLines (l ++ bs) = l :: splitLines bs := by
  intro l
  induction l with
  | nil => intro bs h _ _; exact absurd rfl h
  | cons x xs ih =>
    intro bs _ hint hend
    rcases xs with _ | ⟨y, ys⟩
    · have hx : x = 10 := by simpa [endsWithNl] using hend
      subst hx
      rw [List.cons_append, List.nil_append, splitLines_cons, if_pos rfl]
    · have hx : x ≠ 10 := by
        intro h
        apply hint
        rw [List.dropLast_cons₂]
        exact h ▸ List.mem_cons_self x _
      have hint' : (10 : Nat) ∉ (y :: ys).dropLast := by
        intro h
        apply hint
        rw [List.dropLast_cons₂]
        exact List.mem_cons_of_mem x h
      have hend' : endsWithNl (y :: ys) = true := by
        rwa [endsWithNl_cons x (y :: ys) (by simp)] at hend
      have hrec := ih bs (by simp) hint' hend'
      rw [List.cons_append, splitLines_cons, if_neg hx, hrec]

theorem splitLines_flatten : ∀ ls : List Line,
    (∀ l ∈ ls, l ≠ [] ∧ (10 : Nat) ∉ l.dropLast) → chainEnds ls →
    splitLines ls.flatten = ls := by
  intro ls
  induction ls with
  | nil => intro _ _; rfl
  | cons l rest ih =>
    intro h1 h2
    rcases rest with _ | ⟨l₂, t⟩
    · have hl := h1 l (by simp)
      simp only [List.flatten_cons, List.flatten_nil, List.append_nil]
      exact splitLines_single l hl.1 hl.2
    · have hl := h1 l (by simp)
      rw [List.flatten_cons, splitLines_append_line l _ hl.1 hl.2 h2.1,
        ih (fun l' hl' => h1 l' (by simp [hl'])) (chainEnds_tail h2)]

theorem chainEnds_sublist : ∀ {ls' ls : List Line}, List.Sublist ls' ls →
    chainEnds ls → chainEnds ls' := by
  intro ls' ls h
  induction h with
  | slnil => intro _; trivial
  | cons a h ih => intro hch; exact ih (chainEnds_tail hch)
  | cons₂ a h ih =>
    intro hch
    rename_i t' t
    rcases t' with _ | ⟨b, t''⟩
    · trivial
    · rcases t with _ | ⟨c, t₀⟩
      · exact absurd (List.sublist_nil.mp h) (by simp)
      · exact ⟨hch.1, ih (chainEnds_tail hch)⟩

/-! ## Claim theorems -/

/-- Claim C1: for every input stream, the sequence of lines written to the
output stream is exactly the input's line sequence filtered to first
occurrences (a line is kept iff no earlier line produced the same digest),
in the input's original relative order. -/
theorem claim_c1_output_first_occurrences (lines : List Line) :
    (remove_duplicates lines).out = firstOccurrences md5 lines := by
  have h := foldl_out_spec md5 lines initState [] (by intro d; simp [initState])
  simpa [remove_duplicates, processLinesWith, firstOccurrences, initState] using h

/-- Claim C2: unique_count + duplicate_count equals the number of lines read,
both counters start at zero, and each processed line increments exactly one
of the two counters. -/
theorem claim_c2_counts_partition :
    (∀ lines : List Line,
      (remove_duplicates lines).unique_count
        + (remove_duplicates lines).duplicate_count = lines.length) ∧
    initState.unique_count = 0 ∧ initState.duplicate_count = 0 ∧
    ∀ (s : DedupState) (l : Line),
      ((processLine md5 s l).unique_count = s.unique_count + 1 ∧
        (processLine md5 s l).duplicate_count = s.duplicate_count) ∨
      ((processLine md5 s l).unique_count = s.unique_count ∧
        (processLine md5 s l).duplicate_count = s.duplicate_count + 1) := by
  refine ⟨?_, rfl, rfl, ?_⟩
  · intro lines
    have h := foldl_counts md5 lines initState
    simpa [remove_duplicates, processLinesWith, initState] using h
  · intro s l
    by_cases hmem : md5 l ∈ s.seen_hashes
    · right
      rw [processLine_of_mem md5 s l hmem]
      exact ⟨rfl, rfl⟩
    · left
      rw [processLine_of_not_mem md5 s l hmem]
      exact ⟨rfl, rfl⟩

/-- Claim C3 counterexample: the input file bytes "a\r\na\n" contain two lines
that differ only in line-ending style, yet the code merges them: text-mode
reading normalises CRLF to LF before hashing, so the second line is counted a
duplicate and only "a\n" is written — the claim's "treated as distinct, with
original terminator preserved" fails. -/
theorem claim_c3_crlf_counterexample :
    (remove_duplicates_file [97, 13, 10, 97, 10]).out = [[97, 10]] ∧
    (remove_duplicates_file [97, 13, 10, 97, 10]).unique_count = 1 ∧
    (remove_duplicates_file [97, 13, 10, 97, 10]).duplicate_count = 1 := by
  refine ⟨by decide, by decide, by decide⟩

/-- Claim C3 amended: text-mode reading translates every CRLF and lone CR to
LF before lines are hashed, so no line ever contains a CR byte, lines that
differed only in line-ending style become byte-identical and the later one is
dropped as a duplicate (as on the file "a\r\na\n"). -/
theorem claim_c3_newline_normalisation :
    (∀ f : List Nat,
      ((readLines f).all fun l => l.all fun b => !(b == 13)) = true) ∧
    (remove_duplicates_file [97, 13, 10, 97, 10]).out = [[97, 10]] ∧
    (remove_duplicates_file [97, 13, 10, 97, 10]).unique_count = 1 ∧
    (remove_duplicates_file [97, 13, 10, 97, 10]).duplicate_count = 1 := by
  refine ⟨?_, by decide, by decide, by decide⟩
  intro f
  rw [List.all_eq_true]
  intro l hl
  rw [List.all_eq_true]
  intro b hb
  have hbf : b ∈ translateNewlines f := mem_line_mem_bytes hl hb
  have hb13 : b ≠ 13 := fun h => translateNewlines_no_cr f (h ▸ hbf)
  simpa using hb13

/-- Claim C4 counterexample: on a failing stream the code does not let the
typed I/O exception propagate to the caller; `remove_duplicates` catches it,
prints, and terminates the process itself with exit code 1. -/
theorem claim_c4_exit_counterexample :
    remove_duplicates_run (Sum.inl StreamFault.fileNotFound) = RunOutcome.exited 1 ∧
    remove_duplicates_run (Sum.inl StreamFault.fileNotFound)
      ≠ RunOutcome.raised StreamFault.fileNotFound := by
  exact ⟨rfl, by decide⟩

/-- Claim C4 amended: on any I/O fault `remove_duplicates` aborts without
returning the accumulated counts, but instead of re-raising the typed error
to its caller it prints a message and exits the process with code 1 itself. -/
theorem claim_c4_fault_exits_one (e : StreamFault) :
    remove_duplicates_run (Sum.inl e) = RunOutcome.exited 1 := rfl

/-- Claim C6: each processed line is either written with its digest absent
from the seen set at the check and recorded immediately after, or dropped
with the seen set unchanged; consequently no two output lines are
byte-identical. -/
theorem claim_c6_seen_set_protocol :
    (∀ (s : DedupState) (l : Line),
      ((processLine md5 s l).out = s.out ++ [l] ∧
        (processLine md5 s l).seen_hashes = s.seen_hashes ++ [md5 l] ∧
        md5 l ∉ s.seen_hashes) ∨
      ((processLine md5 s l).out = s.out ∧
        (processLine md5 s l).seen_hashes = s.seen_hashes ∧
        md5 l ∈ s.seen_hashes)) ∧
    ∀ lines : List Line, (remove_duplicates lines).out.Nodup := by
  constructor
  · intro s l
    by_cases hmem : md5 l ∈ s.seen_hashes
    · right
      rw [processLine_of_mem md5 s l hmem]
      exact ⟨rfl, rfl, hmem⟩
    · left
      rw [processLine_of_not_mem md5 s l hmem]
      exact ⟨rfl, rfl, hmem⟩
  · intro lines
    have hseen : (remove_duplicates lines).seen_hashes
        = (remove_duplicates lines).out.map md5 :=
      foldl_seen_eq_map md5 lines initState rfl
    have hnd : (remove_duplicates lines).seen_hashes.Nodup :=
      foldl_seen_nodup md5 lines initState List.nodup_nil
    rw [hseen] at hnd
    exact List.Nodup.of_map md5 hnd

/-- Claim C7: if a later line has the same digest as an earlier one — in
particular for two byte-wise distinct lines, a hash collision — the later
line is dropped (output unchanged) and counted as a duplicate, with no
content comparison; stated for the loop with an arbitrary digest function,
of which `remove_duplicates` is the `md5` instance. -/
theorem claim_c7_collision_merged (hash : Line → List Nat) (l₁ l₂ : Line)
    (pre mid : List Line) (hcol : hash l₁ = hash l₂) (_hne : l₁ ≠ l₂) :
    (processLinesWith hash (pre ++ l₁ :: mid ++ [l₂])).out
      = (processLinesWith hash (pre ++ l₁ :: mid)).out ∧
    (processLinesWith hash (pre ++ l₁ :: mid ++ [l₂])).duplicate_count
      = (processLinesWith hash (pre ++ l₁ :: mid)).duplicate_count + 1 ∧
    (processLinesWith hash (pre ++ l₁ :: mid ++ [l₂])).unique_count
      = (processLinesWith hash (pre ++ l₁ :: mid)).unique_count := by
  have hmem : hash l₂ ∈ (processLinesWith hash (pre ++ l₁ :: mid)).seen_hashes := by
    rw [← hcol]
    exact foldl_hash_mem hash (pre ++ l₁ :: mid) initState l₁ (by simp)
  have hsplit : pre ++ l₁ :: mid ++ [l₂] = (pre ++ l₁ :: mid) ++ [l₂] := by
    simp
  rw [hsplit]
  have hfold : processLinesWith hash ((pre ++ l₁ :: mid) ++ [l₂])
      = processLine hash (processLinesWith hash (pre ++ l₁ :: mid)) l₂ := by
    simp [processLinesWith, List.foldl_append]
  rw [hfold, processLine_of_mem hash _ l₂ hmem]
  exact ⟨rfl, rfl, rfl⟩

/-- Claim C7 witness: a concrete run under a digest function that collides on
the distinct lines "a" and "b" — the collided later line is dropped and
counted as a duplicate. -/
theorem claim_c7_collision_merged_witness :
    ((fun _ : Line => ([] : List Nat)) [97] = (fun _ : Line => ([] : List Nat)) [98]) ∧
    ([97] : Line) ≠ [98] ∧
    ((processLinesWith (fun _ : Line => ([] : List Nat)) [[97], [98]]).out
        = (processLinesWith (fun _ : Line => ([] : List Nat)) [[97]]).out ∧
      (processLinesWith (fun _ : Line => ([] : List Nat)) [[97], [98]]).duplicate_count
        = (processLinesWith (fun _ : Line => ([] : List Nat)) [[97]]).duplicate_count + 1 ∧
      (processLinesWith (fun _ : Line => ([] : List Nat)) [[97], [98]]).unique_count
        = (processLinesWith (fun _ : Line => ([] : List Nat)) [[97]]).unique_count) :=
  ⟨rfl, by decide, claim_c7_collision_merged (fun _ => []) [97] [98] [] [] rfl (by decide)⟩

/-- Claim C8: Scenario A — on the lines "a\n","b\n","a\n","c\n","b\n" the
code writes "a\n","b\n","c\n" and returns unique_count 3, duplicate_count 2. -/
theorem claim_c8_scenario_a :
    (remove_duplicates [[97,10],[98,10],[97,10],[99,10],[98,10]]).out
      = [[97,10],[98,10],[99,10]] ∧
    (remove_duplicates [[97,10],[98,10],[97,10],[99,10],[98,10]]).unique_count = 3 ∧
    (remove_duplicates [[97,10],[98,10],[97,10],[99,10],[98,10]]).duplicate_count = 2 := by
  refine ⟨by decide, by decide, by decide⟩

/-- Claim C9: Scenario B — an empty input yields an empty output and both
counters zero, at the line level and at the file-byte level. -/
theorem claim_c9_empty_input :
    (remove_duplicates []).out = [] ∧
    (remove_duplicates []).unique_count = 0 ∧
    (remove_duplicates []).duplicate_count = 0 ∧
    (remove_duplicates_file []).out.flatten = [] ∧
    (remove_duplicates_file []).unique_count = 0 ∧
    (remove_duplicates_file []).duplicate_count = 0 :=
  ⟨rfl, rfl, rfl, rfl, rfl, rfl⟩

/-- Claim C10: the result is a deterministic function of the input's line
sequence alone — two input files reading to identical line sequences yield
identical states: same output lines (hence byte-identical output) and equal
counter pairs. -/
theorem claim_c10_content_determinism (f₁ f₂ : List Nat)
    (h : readLines f₁ = readLines f₂) :
    remove_duplicates_file f₁ = remove_duplicates_file f₂ := by
  show remove_duplicates (readLines f₁) = remove_duplicates (readLines f₂)
  rw [h]

/-- Claim C10 witness: the files "a\r\n" and "a\n" differ as bytes but read
to the same line sequence, so both runs agree. -/
theorem claim_c10_content_determinism_witness :
    readLines [97, 13, 10] = readLines [97, 10] ∧
    remove_duplicates_file [97, 13, 10] = remove_duplicates_file [97, 10] :=
  ⟨by decide, claim_c10_content_determinism [97, 13, 10] [97, 10] (by decide)⟩

/-- Claim C5: running the routine on the output file it produced yields the
same output lines, byte-identical output file content, the first run's
unique_count, and duplicate_count 0. -/
theorem claim_c5_idempotent (f : List Nat) :
    (remove_duplicates_file ((remove_duplicates_file f).out.flatten)).out
      = (remove_duplicates_file f).out ∧
    (remove_duplicates_file ((remove_duplicates_file f).out.flatten)).out.flatten
      = (remove_duplicates_file f).out.flatten ∧
    (remove_duplicates_file ((remove_duplicates_file f).out.flatten)).unique_count
      = (remove_duplicates_file f).unique_count ∧
    (remove_duplicates_file ((remove_duplicates_file f).out.flatten)).duplicate_count
      = 0 := by
  have hseen : (remove_duplicates_file f).seen_hashes
      = (remove_duplicates_file f).out.map md5 :=
    foldl_seen_eq_map md5 (readLines f) initState rfl
  have hnodup : ((remove_duplicates_file f).out.map md5).Nodup := by
    rw [← hseen]
    exact foldl_seen_nodup md5 (readLines f) initState List.nodup_nil
  have hout : (remove_duplicates_file f).out
      = firstOccurrencesFrom md5 [] (readLines f) := by
    have h := foldl_out_spec md5 (readLines f) initState [] (by intro d; simp [initState])
    simpa [remove_duplicates_file, remove_duplicates, processLinesWith, initState]
      using h
  have hsub : List.Sublist (remove_duplicates_file f).out (readLines f) := by
    rw [hout]
    exact firstOccurrencesFrom_sublist md5 (readLines f) []
  have hmem_lines : ∀ l ∈ (remove_duplicates_file f).out, l ∈ readLines f :=
    fun l hl => hsub.subset hl
  have hwf : ∀ l ∈ (remove_duplicates_file f).out,
      l ≠ [] ∧ (10 : Nat) ∉ l.dropLast :=
    fun l hl => splitLines_wf (translateNewlines f) l (hmem_lines l hl)
  have hchain : chainEnds (remove_duplicates_file f).out :=
    chainEnds_sublist hsub (chainEnds_splitLines (translateNewlines f))
  have hno13 : ∀ b ∈ ((remove_duplicates_file f).out).flatten, b ≠ 13 := by
    intro b hb
    obtain ⟨l, hl, hbl⟩ := List.mem_flatten.1 hb
    have hbf : b ∈ translateNewlines f := mem_line_mem_bytes (hmem_lines l hl) hbl
    exact fun h => translateNewlines_no_cr f (h ▸ hbf)
  have hread : readLines ((remove_duplicates_file f).out.flatten)
      = (remove_duplicates_file f).out := by
    show splitLines (translateNewlines _) = _
    rw [translateNewlines_of_no_cr _ hno13]
    exact splitLines_flatten _ hwf hchain
  have hall := foldl_all_new md5 ((remove_duplicates_file f).out) initState
    (by intro l _; simp [initState]) hnodup
  have hulen : (remove_duplicates_file f).unique_count
      = ((remove_duplicates_file f).out).length :=
    foldl_unique_eq_length md5 (readLines f) initState rfl
  have hr2 : remove_duplicates_file ((remove_duplicates_file f).out.flatten)
      = ⟨((remove_duplicates_file f).out).map md5,
         (remove_duplicates_file f).out,
         ((remove_duplicates_file f).out).length, 0⟩ := by
    show remove_duplicates (readLines ((remove_duplicates_file f).out.flatten)) = _
    rw [hread]
    show List.foldl (processLine md5) initState ((remove_duplicates_file f).out) = _
    rw [hall]
    simp [initState]
  refine ⟨by rw [hr2], by rw [hr2], by rw [hr2, hulen], by rw [hr2]⟩
